import Mathlib

/-!
Verification of the Queue Store ordering/identity layer
(`src/packages/workbox-background-sync/src/lib/QueueStore.ts`).

The Queue Store delegates durability to an Entry Store collaborator
(`QueueDb`), whose source is not part of this tree; the Entry Store
operations below are therefore modelled from the external-interface
contract of the specification (§6), while every `QueueStore` operation
is translated directly from `QueueStore.ts`.

Entries are persisted records with an integer `id` (a single identity
space shared by all queues), a `queueName` partition key, and an opaque
`requestData` payload (modelled as a `String`).  IndexedDB asynchrony is
modelled by explicit state passing: each operation takes the current
database value and returns the updated one; fallible persistence
(`addEntry`) returns an `Option`.
-/

namespace Workbox

/-- A record persisted in the Entry Store: `id` assigned at insertion,
`queueName` stamped by the Queue Store, opaque payload `requestData`. -/
structure StoredEntry where
  id : Int
  queueName : String
  requestData : String
deriving DecidableEq, Repr

/-- An entry as supplied by (and mutated in place for) the caller of
`pushEntry` / `unshiftEntry`: `id` and `queueName` may be absent. -/
structure Entry where
  id : Option Int
  queueName : Option String
  requestData : String
deriving DecidableEq, Repr

/-- Ascending-id order on stored records, the traversal order of the
Entry Store's index. -/
def byId (a b : StoredEntry) : Prop := a.id ≤ b.id

instance : DecidableRel byId := fun a b => inferInstanceAs (Decidable (a.id ≤ b.id))

instance : IsTotal StoredEntry byId := ⟨fun a b => Int.le_total a.id b.id⟩

instance : IsTrans StoredEntry byId := ⟨fun _ _ _ h h2 => le_trans h h2⟩

/-- Records listed in ascending `id` order, as an index cursor walking in
direction `next` would produce them. -/
def sortById (l : List StoredEntry) : List StoredEntry := l.insertionSort byId

/-- Modelled from the spec: the Entry Store (`QueueDb`), the durable
collaborator whose implementation is out of scope (§2, §6).  Its state is
the list of persisted records (in insertion order) together with the
global auto-increment counter for `id` assignment. -/
structure QueueDb where
  entries : List StoredEntry
  nextId : Int
deriving DecidableEq, Repr

/-- Modelled from the spec: an Entry Store holding no records, with the
auto-increment sequence at its starting value. -/
def QueueDb.init : QueueDb := { entries := [], nextId := 1 }

/-- Modelled from the spec (§6): `addEntry(entry)` persists a new record;
if `entry.id` is unset, assigns the next id in a single global
auto-incrementing sequence; fails if `entry.id` is set but already
occupied.  The persisted record shape (§3) requires `queueName`. -/
def QueueDb.addEntry (db : QueueDb) (e : Entry) : Option QueueDb :=
  match e.queueName with
  | none => none
  | some q =>
    match e.id with
    | some i =>
      if db.entries.any (fun s => s.id == i) then none
      else some { entries := db.entries ++ [⟨i, q, e.requestData⟩], nextId := db.nextId }
    | none =>
      if db.entries.any (fun s => s.id == db.nextId) then none
      else some { entries := db.entries ++ [⟨db.nextId, q, e.requestData⟩],
                  nextId := db.nextId + 1 }

/-- Modelled from the spec (§6): `getFirstEntry()` returns the record
with the globally-lowest `id` across all queue names, or nothing if the
store is empty. -/
def QueueDb.getFirstEntry (db : QueueDb) : Option StoredEntry :=
  (sortById db.entries).head?

/-- Cursor traversal direction (`IDBCursorDirection`): `next` is
ascending id order, `prev` is descending. -/
inductive Direction where
  | next
  | prev
deriving DecidableEq, Repr

/-- Modelled from the spec (§6): `getEndEntryFromIndex({direction}, q)`
returns the single record matching queue name `q` that is first in
traversal order `direction` (ascending = front, descending = back), or
nothing if none match. -/
def QueueDb.getEndEntryFromIndex (db : QueueDb) (dir : Direction) (q : String) :
    Option StoredEntry :=
  match dir with
  | .next => (sortById (db.entries.filter (fun s => s.queueName == q))).head?
  | .prev => (sortById (db.entries.filter (fun s => s.queueName == q))).getLast?

/-- Modelled from the spec (§6): `getAllEntriesFromIndex(q)` returns all
records matching queue name `q`, in ascending `id` order. -/
def QueueDb.getAllEntriesFromIndex (db : QueueDb) (q : String) : List StoredEntry :=
  sortById (db.entries.filter (fun s => s.queueName == q))

/-- Modelled from the spec (§6): `deleteEntry(id)` deletes the record
with the given id; no-op if absent. -/
def QueueDb.deleteEntry (db : QueueDb) (i : Int) : QueueDb :=
  { entries := db.entries.filter (fun s => !(s.id == i)), nextId := db.nextId }

/-- The Queue Store: stateless except for its bound queue name
(`QueueStore.ts`, constructor). -/
structure QueueStore where
  _queueName : String
deriving DecidableEq, Repr

/-- `QueueStore.pushEntry` (`QueueStore.ts:44`): deletes any
caller-supplied `id` so one is automatically generated, stamps
`entry.queueName` with the bound name, and persists via `addEntry`.
Returns the updated store paired with the mutated caller entry. -/
def QueueStore.pushEntry (qs : QueueStore) (db : QueueDb) (entry : Entry) :
    Option (QueueDb × Entry) :=
  let e := { entry with id := none, queueName := some qs._queueName }
  (db.addEntry e).map (fun db2 => (db2, e))

/-- `QueueStore.unshiftEntry` (`QueueStore.ts:76`): reads the record with
the globally-lowest id; if one exists, sets `entry.id` to that id minus
one, otherwise deletes `entry.id` so the auto-incrementor assigns it;
stamps `entry.queueName`; persists via `addEntry`. -/
def QueueStore.unshiftEntry (qs : QueueStore) (db : QueueDb) (entry : Entry) :
    Option (QueueDb × Entry) :=
  let e :=
    match db.getFirstEntry with
    | some firstEntry =>
        { entry with id := some (firstEntry.id - 1), queueName := some qs._queueName }
    | none => { entry with id := none, queueName := some qs._queueName }
  (db.addEntry e).map (fun db2 => (db2, e))

/-- `QueueStore.deleteEntry` (`QueueStore.ts:150`): deletes by global id,
with no check that the record belongs to this queue. -/
def QueueStore.deleteEntry (_qs : QueueStore) (db : QueueDb) (i : Int) : QueueDb :=
  db.deleteEntry i

/-- `QueueStore._removeEntry` (`QueueStore.ts:161`): fetches the end-most
record matching the bound queue name in the given direction; if one is
found, deletes it by id and returns it, otherwise returns nothing. -/
def QueueStore._removeEntry (qs : QueueStore) (db : QueueDb) (dir : Direction) :
    QueueDb × Option StoredEntry :=
  match db.getEndEntryFromIndex dir qs._queueName with
  | some entry => (qs.deleteEntry db entry.id, some entry)
  | none => (db, none)

/-- `QueueStore.popEntry` (`QueueStore.ts:112`): removes and returns the
last matching record (direction `prev`). -/
def QueueStore.popEntry (qs : QueueStore) (db : QueueDb) : QueueDb × Option StoredEntry :=
  qs._removeEntry db .prev

/-- `QueueStore.shiftEntry` (`QueueStore.ts:120`): removes and returns
the first matching record (direction `next`). -/
def QueueStore.shiftEntry (qs : QueueStore) (db : QueueDb) : QueueDb × Option StoredEntry :=
  qs._removeEntry db .next

/-- `QueueStore.getAll` (`QueueStore.ts:133`): all records matching the
bound queue name, in ascending id order. -/
def QueueStore.getAll (qs : QueueStore) (db : QueueDb) : List StoredEntry :=
  db.getAllEntriesFromIndex qs._queueName

/-- Runs a sequence of `pushEntry` calls, each through the indicated
store instance, threading the database state. -/
def pushSeq (db : QueueDb) : List (QueueStore × Entry) → Option QueueDb
  | [] => some db
  | (qs, e) :: rest =>
    match qs.pushEntry db e with
    | some (db2, _) => pushSeq db2 rest
    | none => none

/-- Runs a sequence of `unshiftEntry` calls on one store instance,
threading the database state. -/
def unshiftSeq (qs : QueueStore) (db : QueueDb) : List Entry → Option QueueDb
  | [] => some db
  | e :: rest =>
    match qs.unshiftEntry db e with
    | some (db2, _) => unshiftSeq qs db2 rest
    | none => none

/-- The records a sequence of pushes appends, with auto-assigned ids
counting up from `start`. -/
def pushedSeqFrom (start : Int) : List (QueueStore × Entry) → List StoredEntry
  | [] => []
  | (qs, e) :: rest => ⟨start, qs._queueName, e.requestData⟩ :: pushedSeqFrom (start + 1) rest

/-- The records a sequence of unshifts appends, with ids counting down
from `start`. -/
def unshiftedFrom (start : Int) (q : String) : List Entry → List StoredEntry
  | [] => []
  | e :: rest => ⟨start, q, e.requestData⟩ :: unshiftedFrom (start - 1) q rest

/-- The ids `start, start - 1, ...`, `n` of them. -/
def idsDownFrom (start : Int) : Nat → List Int
  | 0 => []
  | n + 1 => start :: idsDownFrom (start - 1) n

/-- The database state after `n` repeated `popEntry` calls. -/
def popIter (qs : QueueStore) (db : QueueDb) : Nat → QueueDb
  | 0 => db
  | n + 1 => popIter qs (qs.popEntry db).1 n

/-- The database state after `n` repeated `shiftEntry` calls. -/
def shiftIter (qs : QueueStore) (db : QueueDb) : Nat → QueueDb
  | 0 => db
  | n + 1 => shiftIter qs (qs.shiftEntry db).1 n

lemma byId_iff {a b : StoredEntry} : byId a b ↔ a.id ≤ b.id := Iff.rfl

lemma sortById_perm (l : List StoredEntry) : List.Perm (sortById l) l :=
  List.perm_insertionSort byId l

lemma sortById_sorted (l : List StoredEntry) : List.Sorted byId (sortById l) :=
  List.sorted_insertionSort byId l

lemma mem_sortById {s : StoredEntry} {l : List StoredEntry} : s ∈ sortById l ↔ s ∈ l :=
  (sortById_perm l).mem_iff

lemma sortById_eq_nil_iff {l : List StoredEntry} : sortById l = [] ↔ l = [] := by
  rw [← List.length_eq_zero, ← List.length_eq_zero, (sortById_perm l).length_eq]

lemma sorted_head?_min {l : List StoredEntry} {x : StoredEntry}
    (hs : List.Sorted byId l) (hx : l.head? = some x) :
    x ∈ l ∧ ∀ s ∈ l, x.id ≤ s.id := by
  cases l with
  | nil => cases hx
  | cons a t =>
    simp only [List.head?_cons, Option.some.injEq] at hx
    subst hx
    refine ⟨List.mem_cons_self _ _, ?_⟩
    intro s hsmem
    rcases List.mem_cons.mp hsmem with rfl | h2
    · exact le_refl _
    · exact List.rel_of_sorted_cons hs s h2

lemma sorted_getLast?_max : ∀ {l : List StoredEntry} {x : StoredEntry},
    List.Sorted byId l → l.getLast? = some x → x ∈ l ∧ ∀ s ∈ l, s.id ≤ x.id
  | [], x, _, hx => by cases hx
  | [a], x, _, hx => by
    simp only [List.getLast?_singleton, Option.some.injEq] at hx
    subst hx
    refine ⟨List.mem_singleton.mpr rfl, ?_⟩
    intro s hsmem
    rw [List.mem_singleton.mp hsmem]
  | a :: b :: t, x, hs, hx => by
    rw [List.getLast?_cons_cons] at hx
    obtain ⟨hmem, hmax⟩ := sorted_getLast?_max hs.of_cons hx
    refine ⟨List.mem_cons_of_mem a hmem, ?_⟩
    intro s hsmem
    rcases List.mem_cons.mp hsmem with rfl | h2
    · exact List.rel_of_sorted_cons hs x hmem
    · exact hmax s h2

lemma sortById_head?_of_strict_min {l : List StoredEntry} {x : StoredEntry}
    (hx : x ∈ l) (hmin : ∀ s ∈ l, s ≠ x → x.id < s.id) :
    (sortById l).head? = some x := by
  cases hh : (sortById l).head? with
  | none =>
    rw [List.head?_eq_none_iff, sortById_eq_nil_iff] at hh
    rw [hh] at hx
    cases hx
  | some h =>
    obtain ⟨hmem, hlow⟩ := sorted_head?_min (sortById_sorted l) hh
    have hhl : h ∈ l := mem_sortById.mp hmem
    by_cases he : h = x
    · rw [he]
    · have h1 := hmin h hhl he
      have h2 := hlow x (mem_sortById.mpr hx)
      omega

lemma getFirstEntry_spec {db : QueueDb} {f : StoredEntry}
    (h : db.getFirstEntry = some f) :
    f ∈ db.entries ∧ ∀ s ∈ db.entries, f.id ≤ s.id := by
  obtain ⟨hm, hmin⟩ := sorted_head?_min (sortById_sorted db.entries) h
  exact ⟨mem_sortById.mp hm, fun s hs => hmin s (mem_sortById.mpr hs)⟩

lemma getFirstEntry_eq_none_iff {db : QueueDb} :
    db.getFirstEntry = none ↔ db.entries = [] := by
  rw [QueueDb.getFirstEntry, List.head?_eq_none_iff, sortById_eq_nil_iff]

lemma getFirstEntry_isSome {db : QueueDb} (h : db.entries ≠ []) :
    ∃ f, db.getFirstEntry = some f := by
  cases hh : db.getFirstEntry with
  | none => exact absurd (getFirstEntry_eq_none_iff.mp hh) h
  | some f => exact ⟨f, rfl⟩

lemma addEntry_auto {db : QueueDb} {e : Entry} {q : String}
    (hq : e.queueName = some q) (hid : e.id = none)
    (h : ∀ s ∈ db.entries, s.id ≠ db.nextId) :
    db.addEntry e = some { entries := db.entries ++ [⟨db.nextId, q, e.requestData⟩],
                           nextId := db.nextId + 1 } := by
  unfold QueueDb.addEntry
  rw [hq, hid]
  simp only []
  rw [if_neg]
  simp only [List.any_eq_true, beq_iff_eq, not_exists, not_and]
  exact h

lemma addEntry_explicit {db : QueueDb} {e : Entry} {q : String} {i : Int}
    (hq : e.queueName = some q) (hid : e.id = some i)
    (h : ∀ s ∈ db.entries, s.id ≠ i) :
    db.addEntry e = some { entries := db.entries ++ [⟨i, q, e.requestData⟩],
                           nextId := db.nextId } := by
  unfold QueueDb.addEntry
  rw [hq, hid]
  simp only []
  rw [if_neg]
  simp only [List.any_eq_true, beq_iff_eq, not_exists, not_and]
  exact h

lemma pushEntry_spec {qs : QueueStore} {db : QueueDb} (e : Entry)
    (h : ∀ s ∈ db.entries, s.id ≠ db.nextId) :
    qs.pushEntry db e =
      some ({ entries := db.entries ++ [⟨db.nextId, qs._queueName, e.requestData⟩],
              nextId := db.nextId + 1 },
            { e with id := none, queueName := some qs._queueName }) := by
  unfold QueueStore.pushEntry
  dsimp only
  rw [addEntry_auto rfl rfl h]
  rfl

lemma unshiftEntry_spec_nonempty {qs : QueueStore} {db : QueueDb} {f : StoredEntry} (e : Entry)
    (hf : db.getFirstEntry = some f) :
    qs.unshiftEntry db e =
      some ({ entries := db.entries ++ [⟨f.id - 1, qs._queueName, e.requestData⟩],
              nextId := db.nextId },
            { e with id := some (f.id - 1), queueName := some qs._queueName }) := by
  have hmin := (getFirstEntry_spec hf).2
  unfold QueueStore.unshiftEntry
  rw [hf]
  dsimp only
  rw [addEntry_explicit rfl rfl (fun s hs => by have := hmin s hs; omega)]
  rfl

lemma unshiftEntry_spec_empty {qs : QueueStore} {db : QueueDb} (e : Entry)
    (hdb : db.entries = []) :
    qs.unshiftEntry db e =
      some ({ entries := db.entries ++ [⟨db.nextId, qs._queueName, e.requestData⟩],
              nextId := db.nextId + 1 },
            { e with id := none, queueName := some qs._queueName }) := by
  unfold QueueStore.unshiftEntry
  rw [getFirstEntry_eq_none_iff.mpr hdb]
  dsimp only
  rw [addEntry_auto rfl rfl (fun s hs => by rw [hdb] at hs; cases hs)]
  rfl

lemma sortById_of_sorted {l : List StoredEntry} (h : List.Sorted byId l) : sortById l = l :=
  h.insertionSort_eq

lemma orderedInsert_of_forall_lt : ∀ {l : List StoredEntry} {a : StoredEntry},
    (∀ b ∈ l, b.id < a.id) → l.orderedInsert byId a = l ++ [a]
  | [], _, _ => rfl
  | b :: l, a, h => by
    rw [List.orderedInsert, if_neg, orderedInsert_of_forall_lt
      (fun c hc => h c (List.mem_cons_of_mem _ hc))]
    · rfl
    · have := h b (List.mem_cons_self _ _)
      rw [byId_iff]
      omega

lemma sortById_of_strictDesc : ∀ {l : List StoredEntry},
    List.Pairwise (fun a b => b.id < a.id) l → sortById l = l.reverse
  | [], _ => rfl
  | a :: l, h => by
    obtain ⟨ha, hl⟩ := List.pairwise_cons.mp h
    show List.orderedInsert byId a (sortById l) = (a :: l).reverse
    rw [sortById_of_strictDesc hl, orderedInsert_of_forall_lt, List.reverse_cons]
    intro b hb
    exact ha b (List.mem_reverse.mp hb)

lemma pushedSeqFrom_mem : ∀ {l : List (QueueStore × Entry)} {start : Int} {s : StoredEntry},
    s ∈ pushedSeqFrom start l →
    start ≤ s.id ∧ ∃ p, p ∈ l ∧ s.queueName = p.1._queueName ∧ s.requestData = p.2.requestData
  | (qs, e) :: rest, start, s, h => by
    rcases List.mem_cons.mp h with rfl | h2
    · exact ⟨le_refl _, ⟨(qs, e), List.mem_cons_self _ _, rfl, rfl⟩⟩
    · obtain ⟨hle, p, hp, hq, hr⟩ := pushedSeqFrom_mem h2
      exact ⟨by omega, ⟨p, List.mem_cons_of_mem _ hp, hq, hr⟩⟩

lemma pushedSeqFrom_sorted : ∀ (l : List (QueueStore × Entry)) (start : Int),
    List.Sorted byId (pushedSeqFrom start l)
  | [], _ => List.sorted_nil
  | (qs, e) :: rest, start => by
    rw [pushedSeqFrom]
    refine List.pairwise_cons.mpr ⟨?_, pushedSeqFrom_sorted rest (start + 1)⟩
    intro b hb
    have := (pushedSeqFrom_mem hb).1
    rw [byId_iff]
    dsimp only
    omega

lemma pushedSeqFrom_map_requestData : ∀ (l : List (QueueStore × Entry)) (start : Int),
    (pushedSeqFrom start l).map (fun s => s.requestData) = l.map (fun p => p.2.requestData)
  | [], _ => rfl
  | (qs, e) :: rest, start => by
    rw [pushedSeqFrom, List.map_cons, List.map_cons,
      pushedSeqFrom_map_requestData rest (start + 1)]

lemma unshiftedFrom_mem : ∀ {es : List Entry} {start : Int} {q : String} {s : StoredEntry},
    s ∈ unshiftedFrom start q es → s.id ≤ start ∧ s.queueName = q
  | e :: rest, start, q, s, h => by
    rcases List.mem_cons.mp h with rfl | h2
    · exact ⟨le_refl _, rfl⟩
    · obtain ⟨hle, hq⟩ := unshiftedFrom_mem h2
      exact ⟨by omega, hq⟩

lemma unshiftedFrom_strictDesc : ∀ (es : List Entry) (start : Int) (q : String),
    List.Pairwise (fun a b : StoredEntry => b.id < a.id) (unshiftedFrom start q es)
  | [], _, _ => List.Pairwise.nil
  | e :: rest, start, q => by
    rw [unshiftedFrom]
    refine List.pairwise_cons.mpr ⟨?_, unshiftedFrom_strictDesc rest (start - 1) q⟩
    intro b hb
    have := (unshiftedFrom_mem hb).1
    dsimp only
    omega

lemma unshiftedFrom_map_requestData : ∀ (es : List Entry) (start : Int) (q : String),
    (unshiftedFrom start q es).map (fun s => s.requestData) = es.map (fun e => e.requestData)
  | [], _, _ => rfl
  | e :: rest, start, q => by
    rw [unshiftedFrom, List.map_cons, List.map_cons,
      unshiftedFrom_map_requestData rest (start - 1) q]

lemma unshiftedFrom_map_id : ∀ (es : List Entry) (start : Int) (q : String),
    (unshiftedFrom start q es).map (fun s => s.id) = idsDownFrom start es.length
  | [], _, _ => rfl
  | e :: rest, start, q => by
    rw [unshiftedFrom, List.map_cons, List.length_cons, idsDownFrom,
      unshiftedFrom_map_id rest (start - 1) q]

lemma pushSeq_spec : ∀ (l : List (QueueStore × Entry)) (db : QueueDb),
    (∀ s ∈ db.entries, s.id < db.nextId) →
    pushSeq db l = some { entries := db.entries ++ pushedSeqFrom db.nextId l,
                          nextId := db.nextId + l.length }
  | [], db, _ => by simp [pushSeq, pushedSeqFrom]
  | (qs, e) :: rest, db, h => by
    have hne : ∀ s ∈ db.entries, s.id ≠ db.nextId := fun s hs => by
      have := h s hs; omega
    rw [pushSeq, pushEntry_spec e hne]
    dsimp only
    rw [pushSeq_spec rest _ ?_]
    · simp only [pushedSeqFrom, Option.some.injEq, QueueDb.mk.injEq, List.append_assoc,
        List.singleton_append, List.length_cons]
      refine ⟨by trivial, ?_⟩
      push_cast
      omega
    · intro s hs
      dsimp only at hs ⊢
      rcases List.mem_append.mp hs with h2 | h2
      · have := h s h2; omega
      · rw [List.mem_singleton.mp h2]
        dsimp only
        omega

lemma unshiftSeq_spec : ∀ (es : List Entry) (qs : QueueStore) (db : QueueDb) (f : StoredEntry),
    db.getFirstEntry = some f →
    unshiftSeq qs db es =
      some { entries := db.entries ++ unshiftedFrom (f.id - 1) qs._queueName es,
             nextId := db.nextId }
  | [], qs, db, f, _ => by simp [unshiftSeq, unshiftedFrom]
  | e :: rest, qs, db, f, hf => by
    have hmin := (getFirstEntry_spec hf).2
    rw [unshiftSeq, unshiftEntry_spec_nonempty e hf]
    dsimp only
    rw [unshiftSeq_spec rest qs _ ⟨f.id - 1, qs._queueName, e.requestData⟩ ?_]
    · simp [unshiftedFrom]
    · show (sortById (db.entries ++ [⟨f.id - 1, qs._queueName, e.requestData⟩])).head? = _
      apply sortById_head?_of_strict_min
      · exact List.mem_append_right _ (List.mem_singleton.mpr rfl)
      · intro s hs hne
        rcases List.mem_append.mp hs with h2 | h2
        · have := hmin s h2
          dsimp only
          omega
        · exact absurd (List.mem_singleton.mp h2) hne

lemma mem_getAll {qs : QueueStore} {db : QueueDb} {s : StoredEntry} :
    s ∈ qs.getAll db ↔ s ∈ db.entries ∧ s.queueName = qs._queueName := by
  unfold QueueStore.getAll QueueDb.getAllEntriesFromIndex
  rw [mem_sortById, List.mem_filter]
  simp only [beq_iff_eq]

lemma removeEntry_empty {qs : QueueStore} {db : QueueDb} (dir : Direction)
    (h : db.entries.filter (fun s => s.queueName == qs._queueName) = []) :
    qs._removeEntry db dir = (db, none) := by
  unfold QueueStore._removeEntry QueueDb.getEndEntryFromIndex
  cases dir <;> rw [h] <;> rfl

lemma removeEntry_prev_spec {qs : QueueStore} {db : QueueDb}
    (h : db.entries.filter (fun s => s.queueName == qs._queueName) ≠ []) :
    ∃ p, p ∈ db.entries ∧ p.queueName = qs._queueName ∧
      (∀ s ∈ db.entries, s.queueName = qs._queueName → s.id ≤ p.id) ∧
      qs._removeEntry db .prev = (db.deleteEntry p.id, some p) := by
  set F := db.entries.filter (fun s => s.queueName == qs._queueName) with hF
  cases hl : (sortById F).getLast? with
  | none =>
    rw [List.getLast?_eq_none_iff, sortById_eq_nil_iff] at hl
    exact absurd hl h
  | some p =>
    obtain ⟨hmem, hmax⟩ := sorted_getLast?_max (sortById_sorted F) hl
    have hpF : p ∈ F := mem_sortById.mp hmem
    obtain ⟨hpe, hpq⟩ := List.mem_filter.mp hpF
    refine ⟨p, hpe, by simpa using hpq, ?_, ?_⟩
    · intro s hs hsq
      exact hmax s (mem_sortById.mpr (List.mem_filter.mpr ⟨hs, by simpa using hsq⟩))
    · unfold QueueStore._removeEntry QueueDb.getEndEntryFromIndex
      rw [← hF, hl]
      rfl

lemma removeEntry_next_spec {qs : QueueStore} {db : QueueDb}
    (h : db.entries.filter (fun s => s.queueName == qs._queueName) ≠ []) :
    ∃ m, m ∈ db.entries ∧ m.queueName = qs._queueName ∧
      (∀ s ∈ db.entries, s.queueName = qs._queueName → m.id ≤ s.id) ∧
      qs._removeEntry db .next = (db.deleteEntry m.id, some m) := by
  set F := db.entries.filter (fun s => s.queueName == qs._queueName) with hF
  cases hl : (sortById F).head? with
  | none =>
    rw [List.head?_eq_none_iff, sortById_eq_nil_iff] at hl
    exact absurd hl h
  | some m =>
    obtain ⟨hmem, hmin⟩ := sorted_head?_min (sortById_sorted F) hl
    have hmF : m ∈ F := mem_sortById.mp hmem
    obtain ⟨hme, hmq⟩ := List.mem_filter.mp hmF
    refine ⟨m, hme, by simpa using hmq, ?_, ?_⟩
    · intro s hs hsq
      exact hmin s (mem_sortById.mpr (List.mem_filter.mpr ⟨hs, by simpa using hsq⟩))
    · unfold QueueStore._removeEntry QueueDb.getEndEntryFromIndex
      rw [← hF, hl]
      rfl

/-- C1: `unshiftEntry(entry)` with a non-empty store persists the new
entry with id equal to the globally-lowest existing id minus one, which is
strictly lower than every id in the entire shared identity space; with an
entirely empty store it persists the entry with id unset so the store
auto-assigns it.  In both cases `entry.queueName` is set to the bound
queue name before persisting. -/
theorem c1_unshiftEntry_id_assignment (qs : QueueStore) (db : QueueDb) (e : Entry) :
    (db.entries ≠ [] → ∃ f, db.getFirstEntry = some f) ∧
    (∀ f, db.getFirstEntry = some f →
      (∀ s ∈ db.entries, f.id - 1 < s.id) ∧
      qs.unshiftEntry db e =
        some ({ entries := db.entries ++ [⟨f.id - 1, qs._queueName, e.requestData⟩],
                nextId := db.nextId },
              { e with id := some (f.id - 1), queueName := some qs._queueName })) ∧
    (db.entries = [] →
      qs.unshiftEntry db e =
        some ({ entries := [⟨db.nextId, qs._queueName, e.requestData⟩],
                nextId := db.nextId + 1 },
              { e with id := none, queueName := some qs._queueName })) := by
  refine ⟨getFirstEntry_isSome, ?_, ?_⟩
  · intro f hf
    have hmin := (getFirstEntry_spec hf).2
    exact ⟨fun s hs => by have := hmin s hs; omega, unshiftEntry_spec_nonempty e hf⟩
  · intro hdb
    have h2 := @unshiftEntry_spec_empty qs db e hdb
    rw [hdb] at h2
    simpa using h2

theorem c1_unshiftEntry_id_assignment_witness :
    (∀ s ∈ (QueueDb.mk [⟨5, "A", "x"⟩] 6).entries, (5 : Int) - 1 < s.id) ∧
    QueueStore.unshiftEntry ⟨"Q"⟩ (QueueDb.mk [⟨5, "A", "x"⟩] 6) ⟨some 99, none, "p"⟩ =
      some (QueueDb.mk [⟨5, "A", "x"⟩, ⟨4, "Q", "p"⟩] 6, ⟨some 4, some "Q", "p"⟩) := by
  have h := (c1_unshiftEntry_id_assignment ⟨"Q"⟩ (QueueDb.mk [⟨5, "A", "x"⟩] 6)
      ⟨some 99, none, "p"⟩).2.1 ⟨5, "A", "x"⟩ (by decide)
  refine ⟨h.1, ?_⟩
  rw [h.2]
  decide

/-- C4: `deleteEntry(id)` deletes the entry with that global id
unconditionally, with no check that its `queueName` matches the calling
store's bound name: the result is the same whichever store issues the
call, the deleted id no longer appears in any queue's `getAll`, and every
record with a different id survives. -/
theorem c4_deleteEntry_unchecked (qsA qsB : QueueStore) (db : QueueDb) (i : Int) :
    qsB.deleteEntry db i =
      { entries := db.entries.filter (fun s => !(s.id == i)), nextId := db.nextId } ∧
    qsB.deleteEntry db i = qsA.deleteEntry db i ∧
    (∀ s ∈ qsA.getAll (qsB.deleteEntry db i), s.id ≠ i) ∧
    (∀ s ∈ db.entries, s.id ≠ i → s ∈ (qsB.deleteEntry db i).entries) := by
  refine ⟨rfl, rfl, ?_, ?_⟩
  · intro s hs
    have h2 := (mem_getAll.mp hs).1
    have h3 := List.mem_filter.mp h2
    simpa using h3.2
  · intro s hs hne
    exact List.mem_filter.mpr ⟨hs, by simpa using hne⟩

theorem c4_deleteEntry_unchecked_witness :
    (StoredEntry.mk 2 "A" "/y").id ≠ 1 ∧
    StoredEntry.mk 2 "A" "/y" ∈
      (QueueStore.deleteEntry ⟨"B"⟩ (QueueDb.mk [⟨1, "A", "/x"⟩, ⟨2, "A", "/y"⟩] 3) 1).entries := by
  have h := c4_deleteEntry_unchecked ⟨"A"⟩ ⟨"B"⟩ (QueueDb.mk [⟨1, "A", "/x"⟩, ⟨2, "A", "/y"⟩] 3) 1
  exact ⟨h.2.2.1 ⟨2, "A", "/y"⟩ (by decide), h.2.2.2 ⟨2, "A", "/y"⟩ (by decide) (by decide)⟩

/-- C6: `pushEntry(entry)` removes any caller-supplied id (so the store
auto-assigns it), sets `entry.queueName` to the bound queue name, and
persists via the add primitive; its only effect on the store is the
addition of exactly one new record, all previously stored entries
unchanged. -/
theorem c6_pushEntry_effect (qs : QueueStore) (db : QueueDb) (e : Entry)
    (h : ∀ s ∈ db.entries, s.id ≠ db.nextId) :
    qs.pushEntry db e =
      some ({ entries := db.entries ++ [⟨db.nextId, qs._queueName, e.requestData⟩],
              nextId := db.nextId + 1 },
            { e with id := none, queueName := some qs._queueName }) :=
  pushEntry_spec e h

theorem c6_pushEntry_effect_witness :
    QueueStore.pushEntry ⟨"Q"⟩ QueueDb.init ⟨some 7, some "Z", "/x"⟩ =
      some (QueueDb.mk [⟨1, "Q", "/x"⟩] 2, ⟨none, some "Q", "/x"⟩) := by
  have h := c6_pushEntry_effect ⟨"Q"⟩ QueueDb.init ⟨some 7, some "Z", "/x"⟩ (by decide)
  rw [h]
  decide

/-- C8: on a queue with no matching entries, `popEntry` and `shiftEntry`
return an absent value and leave the store unchanged, so any number of
repetitions returns absent every time and preserves emptiness. -/
theorem c8_empty_queue_idempotent (qs : QueueStore) (db : QueueDb)
    (h : ∀ s ∈ db.entries, s.queueName ≠ qs._queueName) :
    qs.popEntry db = (db, none) ∧ qs.shiftEntry db = (db, none) ∧
    (∀ n, popIter qs db n = db) ∧ (∀ n, shiftIter qs db n = db) := by
  have hf : db.entries.filter (fun s => s.queueName == qs._queueName) = [] := by
    rw [List.filter_eq_nil_iff]
    intro s hs
    simpa using h s hs
  have hpop : qs.popEntry db = (db, none) := removeEntry_empty .prev hf
  have hshift : qs.shiftEntry db = (db, none) := removeEntry_empty .next hf
  refine ⟨hpop, hshift, ?_, ?_⟩
  · intro n
    induction n with
    | zero => rfl
    | succ k ih => rw [popIter, hpop, ih]
  · intro n
    induction n with
    | zero => rfl
    | succ k ih => rw [shiftIter, hshift, ih]

theorem c8_empty_queue_idempotent_witness :
    QueueStore.popEntry ⟨"Q"⟩ (QueueDb.mk [⟨1, "A", "/x"⟩] 2) =
      (QueueDb.mk [⟨1, "A", "/x"⟩] 2, none) ∧
    QueueStore.shiftEntry ⟨"Q"⟩ (QueueDb.mk [⟨1, "A", "/x"⟩] 2) =
      (QueueDb.mk [⟨1, "A", "/x"⟩] 2, none) ∧
    popIter ⟨"Q"⟩ (QueueDb.mk [⟨1, "A", "/x"⟩] 2) 3 = QueueDb.mk [⟨1, "A", "/x"⟩] 2 ∧
    shiftIter ⟨"Q"⟩ (QueueDb.mk [⟨1, "A", "/x"⟩] 2) 3 = QueueDb.mk [⟨1, "A", "/x"⟩] 2 := by
  have h := c8_empty_queue_idempotent ⟨"Q"⟩ (QueueDb.mk [⟨1, "A", "/x"⟩] 2) (by decide)
  exact ⟨h.1, h.2.1, h.2.2.1 3, h.2.2.2 3⟩

/-- C10: `pushEntry` and `unshiftEntry` mutate the caller-supplied entry:
after a successful `pushEntry` the entry has no id and carries the bound
queue name; after a successful `unshiftEntry` the entry carries the bound
queue name and its id is the global minimum minus one (store non-empty)
or absent (store empty), regardless of the id the caller supplied; the
payload field is unchanged. -/
theorem c10_caller_entry_mutation (qs : QueueStore) (db : QueueDb) (e : Entry) :
    (∀ db2 e2, qs.pushEntry db e = some (db2, e2) →
      e2.id = none ∧ e2.queueName = some qs._queueName ∧ e2.requestData = e.requestData) ∧
    (∀ db2 e2, qs.unshiftEntry db e = some (db2, e2) →
      e2.queueName = some qs._queueName ∧ e2.requestData = e.requestData ∧
      ((db.entries = [] ∧ e2.id = none) ∨
        (∃ f, db.getFirstEntry = some f ∧ (∀ s ∈ db.entries, f.id ≤ s.id) ∧
          e2.id = some (f.id - 1)))) := by
  constructor
  · intro db2 e2 h
    unfold QueueStore.pushEntry at h
    dsimp only at h
    rw [Option.map_eq_some'] at h
    obtain ⟨a, _, ha⟩ := h
    obtain ⟨rfl, rfl⟩ := Prod.mk.injEq .. ▸ ha
    exact ⟨rfl, rfl, rfl⟩
  · intro db2 e2 h
    unfold QueueStore.unshiftEntry at h
    cases hfe : db.getFirstEntry with
    | none =>
      rw [hfe] at h
      dsimp only at h
      rw [Option.map_eq_some'] at h
      obtain ⟨a, _, ha⟩ := h
      obtain ⟨rfl, rfl⟩ := Prod.mk.injEq .. ▸ ha
      exact ⟨rfl, rfl, Or.inl ⟨getFirstEntry_eq_none_iff.mp hfe, rfl⟩⟩
    | some f =>
      rw [hfe] at h
      dsimp only at h
      rw [Option.map_eq_some'] at h
      obtain ⟨a, _, ha⟩ := h
      obtain ⟨rfl, rfl⟩ := Prod.mk.injEq .. ▸ ha
      exact ⟨rfl, rfl, Or.inr ⟨f, rfl, (getFirstEntry_spec hfe).2, rfl⟩⟩

theorem c10_caller_entry_mutation_witness :
    ((Entry.mk none (some "Q") "/x").id = none ∧
      (Entry.mk none (some "Q") "/x").queueName = some (QueueStore.mk "Q")._queueName ∧
      (Entry.mk none (some "Q") "/x").requestData = (Entry.mk (some 7) none "/x").requestData) ∧
    ((Entry.mk (some 0) (some "Q") "/y").queueName = some (QueueStore.mk "Q")._queueName ∧
      (Entry.mk (some 0) (some "Q") "/y").requestData =
        (Entry.mk (some 9) none "/y").requestData ∧
      (((QueueDb.mk [⟨1, "A", "/x"⟩] 2).entries = [] ∧
          (Entry.mk (some 0) (some "Q") "/y").id = none) ∨
        (∃ f, (QueueDb.mk [⟨1, "A", "/x"⟩] 2).getFirstEntry = some f ∧
          (∀ s ∈ (QueueDb.mk [⟨1, "A", "/x"⟩] 2).entries, f.id ≤ s.id) ∧
          (Entry.mk (some 0) (some "Q") "/y").id = some (f.id - 1)))) :=
  ⟨(c10_caller_entry_mutation ⟨"Q"⟩ QueueDb.init ⟨some 7, none, "/x"⟩).1
      (QueueDb.mk [⟨1, "Q", "/x"⟩] 2) ⟨none, some "Q", "/x"⟩ (by decide),
   (c10_caller_entry_mutation ⟨"Q"⟩ (QueueDb.mk [⟨1, "A", "/x"⟩] 2) ⟨some 9, none, "/y"⟩).2
      (QueueDb.mk [⟨1, "A", "/x"⟩, ⟨0, "Q", "/y"⟩] 2) ⟨some 0, some "Q", "/y"⟩ (by decide)⟩

lemma addEntry_entries {db : QueueDb} {e : Entry} {db2 : QueueDb}
    (h : db.addEntry e = some db2) : ∃ r, db2.entries = db.entries ++ [r] := by
  unfold QueueDb.addEntry at h
  split at h
  · cases h
  · split at h
    · split at h
      · cases h
      · cases h
        exact ⟨_, rfl⟩
    · split at h
      · cases h
      · cases h
        exact ⟨_, rfl⟩

/-- C2: starting from an empty store, a sequence of `pushEntry` calls on
one queue makes `getAll` return exactly the pushed entries in push order,
and a sequence of `unshiftEntry` calls makes `getAll` return them in
reverse call order (most recently unshifted first), under the Entry Store
contract of ascending-id reads and auto-increment assignment. -/
theorem c2_push_unshift_order (qs : QueueStore) (es : List Entry) :
    (∃ db2, pushSeq QueueDb.init (es.map (fun e => (qs, e))) = some db2 ∧
      (qs.getAll db2).map (fun s => s.requestData) = es.map (fun e => e.requestData)) ∧
    (∃ db3, unshiftSeq qs QueueDb.init es = some db3 ∧
      (qs.getAll db3).map (fun s => s.requestData) =
        (es.map (fun e => e.requestData)).reverse) := by
  constructor
  · refine ⟨_, pushSeq_spec (es.map (fun e => (qs, e))) QueueDb.init
      (by intro s hs; cases hs), ?_⟩
    unfold QueueStore.getAll QueueDb.getAllEntriesFromIndex
    simp only [QueueDb.init, List.nil_append]
    rw [List.filter_eq_self.mpr ?_, sortById_of_sorted (pushedSeqFrom_sorted _ _),
      pushedSeqFrom_map_requestData, List.map_map]
    · rfl
    · intro s hs
      obtain ⟨_, p, hp, hq, _⟩ := pushedSeqFrom_mem hs
      obtain ⟨e2, _, rfl⟩ := List.mem_map.mp hp
      simp [hq]
  · cases es with
    | nil => exact ⟨QueueDb.init, rfl, rfl⟩
    | cons e rest =>
      have h1 : qs.unshiftEntry QueueDb.init e =
          some (QueueDb.mk [⟨1, qs._queueName, e.requestData⟩] 2,
            { e with id := none, queueName := some qs._queueName }) :=
        unshiftEntry_spec_empty e rfl
      have hfirst : (QueueDb.mk [⟨1, qs._queueName, e.requestData⟩] 2).getFirstEntry =
          some ⟨1, qs._queueName, e.requestData⟩ := rfl
      have h2 : unshiftSeq qs (QueueDb.mk [⟨1, qs._queueName, e.requestData⟩] 2) rest =
          some (QueueDb.mk
            (⟨1, qs._queueName, e.requestData⟩ :: unshiftedFrom 0 qs._queueName rest) 2) :=
        unshiftSeq_spec rest qs _ _ hfirst
      refine ⟨QueueDb.mk
        (⟨1, qs._queueName, e.requestData⟩ :: unshiftedFrom 0 qs._queueName rest) 2, ?_, ?_⟩
      · rw [unshiftSeq, h1]
        exact h2
      · unfold QueueStore.getAll QueueDb.getAllEntriesFromIndex
        dsimp only
        rw [List.filter_eq_self.mpr ?_, sortById_of_strictDesc ?_]
        · rw [List.map_reverse, List.map_cons, List.map_cons,
            unshiftedFrom_map_requestData]
        · refine List.pairwise_cons.mpr ⟨?_, unshiftedFrom_strictDesc rest 0 qs._queueName⟩
          intro b hb
          have := (unshiftedFrom_mem hb).1
          dsimp only
          omega
        · intro s hs
          rcases List.mem_cons.mp hs with rfl | h3
          · simp
          · simp [(unshiftedFrom_mem h3).2]

/-- C3: `popEntry` removes and returns the entry with the highest id
among entries matching the bound queue name, and `shiftEntry` the one
with the lowest id; with no matching entry each returns an absent result
and leaves the store unchanged. -/
theorem c3_pop_shift_extremal (qs : QueueStore) (db : QueueDb) :
    (db.entries.filter (fun s => s.queueName == qs._queueName) = [] →
      qs.popEntry db = (db, none) ∧ qs.shiftEntry db = (db, none)) ∧
    (db.entries.filter (fun s => s.queueName == qs._queueName) ≠ [] →
      (∃ p, p ∈ db.entries ∧ p.queueName = qs._queueName ∧
        (∀ s ∈ db.entries, s.queueName = qs._queueName → s.id ≤ p.id) ∧
        qs.popEntry db = (db.deleteEntry p.id, some p) ∧
        p ∉ (db.deleteEntry p.id).entries ∧
        ((db.entries.map (fun s => s.id)).Nodup →
          ∀ s ∈ db.entries, s ≠ p → s ∈ (db.deleteEntry p.id).entries)) ∧
      (∃ m, m ∈ db.entries ∧ m.queueName = qs._queueName ∧
        (∀ s ∈ db.entries, s.queueName = qs._queueName → m.id ≤ s.id) ∧
        qs.shiftEntry db = (db.deleteEntry m.id, some m) ∧
        m ∉ (db.deleteEntry m.id).entries ∧
        ((db.entries.map (fun s => s.id)).Nodup →
          ∀ s ∈ db.entries, s ≠ m → s ∈ (db.deleteEntry m.id).entries))) := by
  constructor
  · intro h
    exact ⟨removeEntry_empty .prev h, removeEntry_empty .next h⟩
  · intro h
    constructor
    · obtain ⟨p, hpe, hpq, hmax, heq⟩ := removeEntry_prev_spec h
      refine ⟨p, hpe, hpq, hmax, heq, ?_, ?_⟩
      · intro hmem
        have := (List.mem_filter.mp hmem).2
        simp at this
      · intro hnd s hs hne
        refine List.mem_filter.mpr ⟨hs, ?_⟩
        have hid : s.id ≠ p.id := fun hideq =>
          hne (List.inj_on_of_nodup_map hnd hs hpe hideq)
        simpa using hid
    · obtain ⟨m, hme, hmq, hmin, heq⟩ := removeEntry_next_spec h
      refine ⟨m, hme, hmq, hmin, heq, ?_, ?_⟩
      · intro hmem
        have := (List.mem_filter.mp hmem).2
        simp at this
      · intro hnd s hs hne
        refine List.mem_filter.mpr ⟨hs, ?_⟩
        have hid : s.id ≠ m.id := fun hideq =>
          hne (List.inj_on_of_nodup_map hnd hs hme hideq)
        simpa using hid

theorem c3_pop_shift_extremal_witness :
    (QueueStore.popEntry ⟨"Q"⟩ (QueueDb.mk [⟨3, "B", "/c"⟩] 4) =
        (QueueDb.mk [⟨3, "B", "/c"⟩] 4, none) ∧
      QueueStore.shiftEntry ⟨"Q"⟩ (QueueDb.mk [⟨3, "B", "/c"⟩] 4) =
        (QueueDb.mk [⟨3, "B", "/c"⟩] 4, none)) ∧
    (∃ p, p ∈ (QueueDb.mk [⟨1, "Q", "/a"⟩] 2).entries ∧
      p.queueName = (QueueStore.mk "Q")._queueName ∧
      (∀ s ∈ (QueueDb.mk [⟨1, "Q", "/a"⟩] 2).entries,
        s.queueName = (QueueStore.mk "Q")._queueName → s.id ≤ p.id) ∧
      QueueStore.popEntry ⟨"Q"⟩ (QueueDb.mk [⟨1, "Q", "/a"⟩] 2) =
        ((QueueDb.mk [⟨1, "Q", "/a"⟩] 2).deleteEntry p.id, some p) ∧
      p ∉ ((QueueDb.mk [⟨1, "Q", "/a"⟩] 2).deleteEntry p.id).entries ∧
      (((QueueDb.mk [⟨1, "Q", "/a"⟩] 2).entries.map (fun s => s.id)).Nodup →
        ∀ s ∈ (QueueDb.mk [⟨1, "Q", "/a"⟩] 2).entries, s ≠ p →
          s ∈ ((QueueDb.mk [⟨1, "Q", "/a"⟩] 2).deleteEntry p.id).entries)) := by
  refine ⟨(c3_pop_shift_extremal ⟨"Q"⟩ (QueueDb.mk [⟨3, "B", "/c"⟩] 4)).1 (by decide), ?_⟩
  exact ((c3_pop_shift_extremal ⟨"Q"⟩ (QueueDb.mk [⟨1, "Q", "/a"⟩] 2)).2 (by decide)).1

/-- C5: under any interleaving of pushes through stores bound to distinct
queue names A and B (starting from an empty store), `getAll` on the B
store returns only records stamped with B's name and never one stamped
with A's; moreover no operation ever rewrites a stored record, so a
record keeps its `queueName` for its entire lifetime: each operation
either keeps a pre-existing record verbatim or removes it whole. -/
theorem c5_cross_queue_isolation (qsA qsB : QueueStore)
    (hne : qsA._queueName ≠ qsB._queueName) (l : List (Bool × Entry)) :
    (∃ db2,
      pushSeq QueueDb.init (l.map (fun te => (if te.1 then qsA else qsB, te.2))) = some db2 ∧
      db2.entries = pushedSeqFrom 1 (l.map (fun te => (if te.1 then qsA else qsB, te.2))) ∧
      (∀ s ∈ qsB.getAll db2, s.queueName = qsB._queueName ∧ s.queueName ≠ qsA._queueName)) ∧
    (∀ qs db e db2 e2, QueueStore.pushEntry qs db e = some (db2, e2) →
      ∀ s ∈ db.entries, s ∈ db2.entries) ∧
    (∀ qs db e db2 e2, QueueStore.unshiftEntry qs db e = some (db2, e2) →
      ∀ s ∈ db.entries, s ∈ db2.entries) ∧
    (∀ (qs : QueueStore) (db : QueueDb) (i : Int),
      ∀ s ∈ (qs.deleteEntry db i).entries, s ∈ db.entries) ∧
    (∀ (qs : QueueStore) (db : QueueDb),
      ∀ s ∈ (qs.popEntry db).1.entries, s ∈ db.entries) ∧
    (∀ (qs : QueueStore) (db : QueueDb),
      ∀ s ∈ (qs.shiftEntry db).1.entries, s ∈ db.entries) := by
  refine ⟨?_, ?_, ?_, ?_, ?_, ?_⟩
  · refine ⟨_, pushSeq_spec (l.map (fun te => (if te.1 then qsA else qsB, te.2))) QueueDb.init
      (by intro s hs; cases hs), ?_, ?_⟩
    · simp only [QueueDb.init, List.nil_append]
    · intro s hs
      obtain ⟨_, hq⟩ := mem_getAll.mp hs
      exact ⟨hq, by rw [hq]; exact fun h2 => hne h2.symm⟩
  · intro qs db e db2 e2 h s hs
    unfold QueueStore.pushEntry at h
    dsimp only at h
    rw [Option.map_eq_some'] at h
    obtain ⟨a, ha, hpair⟩ := h
    obtain ⟨r, hr⟩ := addEntry_entries ha
    obtain ⟨rfl, rfl⟩ := Prod.mk.injEq .. ▸ hpair
    rw [hr]
    exact List.mem_append_left _ hs
  · intro qs db e db2 e2 h s hs
    unfold QueueStore.unshiftEntry at h
    dsimp only at h
    rw [Option.map_eq_some'] at h
    obtain ⟨a, ha, hpair⟩ := h
    obtain ⟨r, hr⟩ := addEntry_entries ha
    obtain ⟨rfl, rfl⟩ := Prod.mk.injEq .. ▸ hpair
    rw [hr]
    exact List.mem_append_left _ hs
  · intro qs db i s hs
    exact (List.mem_filter.mp hs).1
  · intro qs db s hs
    unfold QueueStore.popEntry QueueStore._removeEntry at hs
    cases hE : db.getEndEntryFromIndex .prev qs._queueName with
    | none => rw [hE] at hs; exact hs
    | some p =>
      rw [hE] at hs
      exact (List.mem_filter.mp hs).1
  · intro qs db s hs
    unfold QueueStore.shiftEntry QueueStore._removeEntry at hs
    cases hE : db.getEndEntryFromIndex .next qs._queueName with
    | none => rw [hE] at hs; exact hs
    | some p =>
      rw [hE] at hs
      exact (List.mem_filter.mp hs).1

theorem c5_cross_queue_isolation_witness :
    (∃ db2,
      pushSeq QueueDb.init
        ([((true : Bool), Entry.mk none none "/a"), ((false : Bool), Entry.mk none none "/b")].map
          (fun te => (if te.1 then QueueStore.mk "A" else QueueStore.mk "B", te.2))) =
        some db2 ∧
      db2.entries = pushedSeqFrom 1
        ([((true : Bool), Entry.mk none none "/a"), ((false : Bool), Entry.mk none none "/b")].map
          (fun te => (if te.1 then QueueStore.mk "A" else QueueStore.mk "B", te.2))) ∧
      (∀ s ∈ (QueueStore.mk "B").getAll db2,
        s.queueName = (QueueStore.mk "B")._queueName ∧
        s.queueName ≠ (QueueStore.mk "A")._queueName)) :=
  (c5_cross_queue_isolation ⟨"A"⟩ ⟨"B"⟩ (by decide)
    [((true : Bool), Entry.mk none none "/a"), ((false : Bool), Entry.mk none none "/b")]).1

/-- C7: the concrete scenario on an initially empty queue "Q": pushing
`/a` then `/b`, then unshifting `/c`, makes `getAll` return `/c`, `/a`,
`/b`; a subsequent `popEntry` returns the `/b` entry, a subsequent
`shiftEntry` returns the `/c` entry, and the final `getAll` returns only
the `/a` entry. -/
theorem c7_example_scenario :
    QueueStore.pushEntry ⟨"Q"⟩ QueueDb.init ⟨none, none, "/a"⟩ =
      some (QueueDb.mk [⟨1, "Q", "/a"⟩] 2, ⟨none, some "Q", "/a"⟩) ∧
    QueueStore.pushEntry ⟨"Q"⟩ (QueueDb.mk [⟨1, "Q", "/a"⟩] 2) ⟨none, none, "/b"⟩ =
      some (QueueDb.mk [⟨1, "Q", "/a"⟩, ⟨2, "Q", "/b"⟩] 3, ⟨none, some "Q", "/b"⟩) ∧
    QueueStore.unshiftEntry ⟨"Q"⟩ (QueueDb.mk [⟨1, "Q", "/a"⟩, ⟨2, "Q", "/b"⟩] 3)
        ⟨none, none, "/c"⟩ =
      some (QueueDb.mk [⟨1, "Q", "/a"⟩, ⟨2, "Q", "/b"⟩, ⟨0, "Q", "/c"⟩] 3,
        ⟨some 0, some "Q", "/c"⟩) ∧
    (QueueStore.getAll ⟨"Q"⟩ (QueueDb.mk [⟨1, "Q", "/a"⟩, ⟨2, "Q", "/b"⟩, ⟨0, "Q", "/c"⟩] 3)).map
        (fun s => s.requestData) = ["/c", "/a", "/b"] ∧
    QueueStore.popEntry ⟨"Q"⟩ (QueueDb.mk [⟨1, "Q", "/a"⟩, ⟨2, "Q", "/b"⟩, ⟨0, "Q", "/c"⟩] 3) =
      (QueueDb.mk [⟨1, "Q", "/a"⟩, ⟨0, "Q", "/c"⟩] 3, some ⟨2, "Q", "/b"⟩) ∧
    QueueStore.shiftEntry ⟨"Q"⟩ (QueueDb.mk [⟨1, "Q", "/a"⟩, ⟨0, "Q", "/c"⟩] 3) =
      (QueueDb.mk [⟨1, "Q", "/a"⟩] 3, some ⟨0, "Q", "/c"⟩) ∧
    (QueueStore.getAll ⟨"Q"⟩ (QueueDb.mk [⟨1, "Q", "/a"⟩] 3)).map (fun s => s.requestData) =
      ["/a"] := by
  decide

/-- C9: ids assigned by `unshiftEntry` are not required to be positive
and have no lower bound: from the reachable state produced by one push on
an empty store (whose single record has id 1), a sequence of `n`
unshifts assigns the ids `0, -1, ..., 1 - n`, with nothing checking or
preventing zero or negative ids. -/
theorem c9_unshift_ids_unbounded_below (qs : QueueStore) (e0 : Entry) (es : List Entry) :
    QueueStore.pushEntry qs QueueDb.init e0 =
      some (QueueDb.mk [⟨1, qs._queueName, e0.requestData⟩] 2,
        { e0 with id := none, queueName := some qs._queueName }) ∧
    unshiftSeq qs (QueueDb.mk [⟨1, qs._queueName, e0.requestData⟩] 2) es =
      some (QueueDb.mk
        (⟨1, qs._queueName, e0.requestData⟩ :: unshiftedFrom 0 qs._queueName es) 2) ∧
    (unshiftedFrom 0 qs._queueName es).map (fun s => s.id) = idsDownFrom 0 es.length := by
  refine ⟨?_, ?_, unshiftedFrom_map_id es 0 qs._queueName⟩
  · exact pushEntry_spec e0 (by intro s hs; cases hs)
  · exact unshiftSeq_spec es qs (QueueDb.mk [⟨1, qs._queueName, e0.requestData⟩] 2)
      ⟨1, qs._queueName, e0.requestData⟩ rfl

end Workbox
